import Mathlib

/-!
# Verification of the Calc recursive-descent expression evaluator

Shallow embedding of `calc.cpp` (class `Calc`): a recursive-descent parser
and evaluator for arithmetic expressions.  The source string is modelled as
`List Char`, the cursor position as a `Nat`, and each C++ parsing method
becomes a Lean function threading the position explicitly.  C++ exceptions
(`ParseError`) become an explicit error constructor; the mutual recursion of
the grammar productions is made total with a fuel argument (a dedicated
`fuelOut` result marks exhaustion, and we prove below that the fuel chosen by
`evaluate` is always sufficient, so `fuelOut` never escapes).

Numeric values: the C++ code computes in IEEE-754 `double`.  We model values
as exact rationals `ℚ`; every concrete computation appearing in the claims
involves small integers, where `double` arithmetic is exact and agrees with
`ℚ`.  The constant table's entries `e` and `pi` stand for the `double`
approximations computed by the C++ constructor, and the function table's
entries stand for the C library's `cos`, `sin`, `sqrt`; no theorem below
depends on any of those numeric values, only on the table keys.
-/

namespace Calc

/-- A parse error: message text and the cursor position at the moment the
C++ code throws (`m_currentPosition`). Mirrors `Calc::ParseError`. -/
structure ParseError where
  message : String
  position : Nat
deriving DecidableEq

/-- Result of running a parsing procedure: a value together with the cursor
position after the call, a propagated `ParseError`, or fuel exhaustion
(an artifact of the embedding, proved unreachable for the fuel used by
`evaluate`). -/
inductive Res (α : Type) where
  | ok : α → Nat → Res α
  | err : ParseError → Res α
  | fuelOut : Res α
deriving DecidableEq

deriving instance DecidableEq for Except

/-- The end-of-stream sentinel `'\0'` returned by `PeekChar`/`GetChar`. -/
def nulChar : Char := Char.ofNat 0

/-- `Calc::PeekChar`: the character at the current position, or `'\0'` at or
past the end of the source. -/
def peekChar (src : List Char) (pos : Nat) : Char :=
  if pos ≥ src.length then nulChar else src.getD pos nulChar

/-- `Calc::GetChar`: returns `PeekChar()` and advances the position by one
unless the result is the `'\0'` sentinel. -/
def getChar (src : List Char) (pos : Nat) : Char × Nat :=
  let result := peekChar src pos
  if result ≠ nulChar then (result, pos + 1) else (result, pos)

/-- C `isdigit` on the ASCII inputs the parser deals with. -/
def isdigitC (c : Char) : Bool := decide (48 ≤ c.toNat ∧ c.toNat ≤ 57)

/-- C `isalpha` on ASCII. -/
def isalphaC (c : Char) : Bool :=
  decide ((65 ≤ c.toNat ∧ c.toNat ≤ 90) ∨ (97 ≤ c.toNat ∧ c.toNat ≤ 122))

/-- C `isalnum` on ASCII. -/
def isalnumC (c : Char) : Bool := isdigitC c || isalphaC c

/-- C `isspace` on ASCII: space, tab, newline, vertical tab, form feed,
carriage return. -/
def isspaceC (c : Char) : Bool :=
  decide (c.toNat = 32 ∨ (9 ≤ c.toNat ∧ c.toNat ≤ 13))

/-- `Calc::IsFirstCharOfDouble`: digit, sign, or decimal point. -/
def isFirstCharOfDouble (c : Char) : Bool :=
  isdigitC c || decide (c = '-') || decide (c = '+') || decide (c = '.')

/-- Fuel-indexed character-run scanner: the body of the C++ loops of the form
`while (pred(PeekChar())) s.push_back(GetChar());`, collecting the consumed
characters.  The fuel `src.length - pos` supplied by `scan` is always
sufficient because every predicate used rejects the `'\0'` sentinel. -/
def scanAux (pred : Char → Bool) (src : List Char) : Nat → Nat → List Char × Nat
  | 0, pos => ([], pos)
  | f + 1, pos =>
    if pred (peekChar src pos) then
      let st := getChar src pos
      let r := scanAux pred src f st.2
      (st.1 :: r.1, r.2)
    else ([], pos)

/-- Runs the character-run scanner with sufficient fuel. -/
def scan (pred : Char → Bool) (src : List Char) (pos : Nat) : List Char × Nat :=
  scanAux pred src (src.length - pos) pos

/-- `Calc::SkipWhite`: advances past consecutive whitespace characters. -/
def skipWhite (src : List Char) (pos : Nat) : Nat :=
  (scan isspaceC src pos).2

/-- Renders a character between single quotes, for `Consume`'s message. -/
def quoteSq (c : Char) : String :=
  String.mk [Char.ofNat 39, c, Char.ofNat 39]

/-- `Calc::Consume`: checks that the next character is the expected one and
advances past it; otherwise fails at the current position. -/
def consume (src : List Char) (pos : Nat) (expected : Char) :
    Except ParseError Nat :=
  if peekChar src pos ≠ expected then
    .error ⟨"Expected " ++ quoteSq expected ++ ".", pos⟩
  else
    .ok (getChar src pos).2

/-- `Calc::GetSymbol`: skip whitespace, require an alphabetic first
character, then consume the maximal alphanumeric run. -/
def getSymbol (src : List Char) (pos : Nat) : Except ParseError (String × Nat) :=
  let p0 := skipWhite src pos
  if isalphaC (peekChar src p0) = false then
    .error ⟨"Expected alpha character at beginning of symbol.", p0⟩
  else
    let r := scan isalnumC src p0
    .ok (String.mk r.1, r.2)

/-- The optional exponent section of `Calc::GetConstant` (lines 303-324):
on an `e`/`E` marker, consume it and an optional sign; if no digit follows,
fail at the current position; otherwise consume the digit run. -/
def munchExponent (src : List Char) (pos : Nat) :
    Except ParseError (List Char × Nat) :=
  if peekChar src pos = 'e' ∨ peekChar src pos = 'E' then
    let st := getChar src pos
    let sgn : List Char × Nat :=
      if peekChar src st.2 = '+' ∨ peekChar src st.2 = '-' then
        let st2 := getChar src st.2
        ([st2.1], st2.2)
      else ([], st.2)
    if isdigitC (peekChar src sgn.2) = false then
      .error ⟨"Expected exponent in floating point constant.", sgn.2⟩
    else
      let r := scan isdigitC src sgn.2
      .ok (st.1 :: sgn.1 ++ r.1, r.2)
  else
    .ok ([], pos)

/-- The optional leading `+`/`-` of `Calc::GetConstant` (lines 281-285). -/
def munchSign (src : List Char) (pos : Nat) : List Char × Nat :=
  if peekChar src pos = '+' ∨ peekChar src pos = '-' then
    let st := getChar src pos
    ([st.1], st.2)
  else ([], pos)

/-- The optional `.`-plus-digit-run part of `Calc::GetConstant`
(lines 293-301). -/
def munchFrac (src : List Char) (pos : Nat) : List Char × Nat :=
  if peekChar src pos = '.' then
    let st := getChar src pos
    let d2 := scan isdigitC src st.2
    (st.1 :: d2.1, d2.2)
  else ([], pos)

/-- The maximal-munch phase of `Calc::GetConstant`: gather the longest
character sequence of the shape `[+|-] digit* [. digit*] [e|E [+|-] digit+]`,
returning the gathered characters (the C++ string `s`) and the position after
them. -/
def munchNumber (src : List Char) (pos : Nat) :
    Except ParseError (List Char × Nat) :=
  let sg := munchSign src pos
  let d1 := scan isdigitC src sg.2
  let fr := munchFrac src d1.2
  match munchExponent src fr.2 with
  | .error e => .error e
  | .ok (ex, p4) => .ok (sg.1 ++ d1.1 ++ fr.1 ++ ex, p4)

/-- Numeric value of an ASCII digit. -/
def digitVal (c : Char) : Nat := c.toNat - 48

/-- Value of a digit run read in base 10. -/
def digitsToNat (ds : List Char) : Nat :=
  ds.foldl (fun a c => 10 * a + digitVal c) 0

/-- `std::stod` restricted to the strings produced by the maximal munch:
optional sign, digit run, optional `.` plus digit run, optional exponent.
Fails (C++ `std::invalid_argument`) exactly when the mantissa contains no
digit at all.  The value is computed exactly in `ℚ` where the C++ code
rounds to the nearest `double`; the two agree on every decimal value that is
exactly representable, which covers every literal a claim evaluates. -/
def stod (s : List Char) : Option ℚ :=
  let sr : ℚ × List Char :=
    match s with
    | '+' :: r => (1, r)
    | '-' :: r => (-1, r)
    | r => (1, r)
  let ip := sr.2.takeWhile isdigitC
  let r2 := sr.2.drop ip.length
  let fpr : List Char × List Char :=
    match r2 with
    | '.' :: r => (r.takeWhile isdigitC, r.drop (r.takeWhile isdigitC).length)
    | r => ([], r)
  if ip.length + fpr.1.length = 0 then none
  else
    let mant : ℚ :=
      sr.1 * (digitsToNat (ip ++ fpr.1) : ℚ) / (10 : ℚ) ^ fpr.1.length
    match fpr.2 with
    | e :: r4 =>
      if e = 'e' ∨ e = 'E' then
        let esr : Bool × List Char :=
          match r4 with
          | '+' :: r => (false, r)
          | '-' :: r => (true, r)
          | r => (false, r)
        let ds := esr.2.takeWhile isdigitC
        if ds.length = 0 then some mant
        else if esr.1 then some (mant / (10 : ℚ) ^ digitsToNat ds)
        else some (mant * (10 : ℚ) ^ digitsToNat ds)
      else some mant
    | [] => some mant

/-- `Calc::GetConstant`: skip whitespace, maximal-munch a numeral, convert it
with `stod`; a failed conversion is reported as an invalid float at the
current position (which by then is the end of the munched text). -/
def getConstant (src : List Char) (pos : Nat) : Res ℚ :=
  let p0 := skipWhite src pos
  match munchNumber src p0 with
  | .error e => .err e
  | .ok (s, p1) =>
    match stod s with
    | some v => .ok v p1
    | none => .err ⟨"Invalid float.", p1⟩

/-- The symbol tables built by the `Calc` constructor: named constants and
named unary functions. -/
structure Tables where
  constants : List (String × ℚ)
  functions : List (String × (ℚ → ℚ))

/-- The `double` value `exp(1)` stored by the constructor (exact value of the
IEEE-754 double nearest e; no theorem depends on it). -/
def eConst : ℚ := 6121026514868073 / 2251799813685248

/-- The `double` value `atan(1) * 4` stored by the constructor (exact value
of the IEEE-754 double nearest π; no theorem depends on it). -/
def piConst : ℚ := 884279719003555 / 281474976710656

/-- Stands for the C library `cos` on doubles: a transcendental real
function with no exact `ℚ` embedding.  No theorem depends on its values,
only on the presence of its key in the function table. -/
def cosQ : ℚ → ℚ := fun _ => 0

/-- Stands for the C library `sin` on doubles; same caveat as `cosQ`. -/
def sinQ : ℚ → ℚ := fun _ => 0

/-- Stands for the C library `sqrt` on doubles; same caveat as `cosQ`. -/
def sqrtQ : ℚ → ℚ := fun _ => 0

/-- The tables populated by `Calc::Calc`: constants `e`, `pi`; functions
`cos`, `sin`, `sqrt`. -/
def defaultTables : Tables :=
  { constants := [("e", eConst), ("pi", piConst)]
    functions := [("cos", cosQ), ("sin", sinQ), ("sqrt", sqrtQ)] }

mutual

/-- `Calc::ParseSum`: a product, optionally followed by a single `+` or `-`
and one more product. -/
def parseSum (t : Tables) (src : List Char) : Nat → Nat → Res ℚ
  | 0, _ => .fuelOut
  | f + 1, pos =>
    match parseProduct t src f pos with
    | .err e => .err e
    | .fuelOut => .fuelOut
    | .ok left p1 =>
      let p2 := skipWhite src p1
      if peekChar src p2 = '+' then
        match parseProduct t src f (getChar src p2).2 with
        | .err e => .err e
        | .fuelOut => .fuelOut
        | .ok right p3 => .ok (left + right) p3
      else if peekChar src p2 = '-' then
        match parseProduct t src f (getChar src p2).2 with
        | .err e => .err e
        | .fuelOut => .fuelOut
        | .ok right p3 => .ok (left - right) p3
      else
        .ok left p2

/-- `Calc::ParseProduct`: a term, optionally followed by a single `*` or `/`
whose right operand recurses into `ParseSum` (the inherited precedence
anomaly). -/
def parseProduct (t : Tables) (src : List Char) : Nat → Nat → Res ℚ
  | 0, _ => .fuelOut
  | f + 1, pos =>
    match parseTerm t src f pos with
    | .err e => .err e
    | .fuelOut => .fuelOut
    | .ok left p1 =>
      let p2 := skipWhite src p1
      if peekChar src p2 = '*' then
        match parseSum t src f (getChar src p2).2 with
        | .err e => .err e
        | .fuelOut => .fuelOut
        | .ok right p3 => .ok (left * right) p3
      else if peekChar src p2 = '/' then
        match parseSum t src f (getChar src p2).2 with
        | .err e => .err e
        | .fuelOut => .fuelOut
        | .ok right p3 => .ok (left / right) p3
      else
        .ok left p2

/-- `Calc::ParseTerm`: a parenthesized sum, a numeric constant, or an
identifier. -/
def parseTerm (t : Tables) (src : List Char) : Nat → Nat → Res ℚ
  | 0, _ => .fuelOut
  | f + 1, pos =>
    let p0 := skipWhite src pos
    let next := peekChar src p0
    if next = '(' then
      match parseSum t src f (getChar src p0).2 with
      | .err e => .err e
      | .fuelOut => .fuelOut
      | .ok v p2 =>
        let p3 := skipWhite src p2
        match consume src p3 ')' with
        | .error e => .err e
        | .ok p4 => .ok v p4
    else if isFirstCharOfDouble next then
      getConstant src p0
    else if isalphaC next then
      parseIdentifier t src f p0
    else
      .err ⟨"Expected a number, symbol or parenthesized expression.", p0⟩

/-- `Calc::ParseIdentifier`: a symbol; if followed by `(` it must name a
function (applied to one parenthesized sum), otherwise it must name a
constant. -/
def parseIdentifier (t : Tables) (src : List Char) : Nat → Nat → Res ℚ
  | 0, _ => .fuelOut
  | f + 1, pos =>
    match getSymbol src pos with
    | .error e => .err e
    | .ok (symbol, p1) =>
      let p2 := skipWhite src p1
      if peekChar src p2 = '(' then
        match t.functions.lookup symbol with
        | some fn =>
          match consume src p2 '(' with
          | .error e => .err e
          | .ok p3 =>
            match parseSum t src f p3 with
            | .err e => .err e
            | .fuelOut => .fuelOut
            | .ok arg p4 =>
              match consume src p4 ')' with
              | .error e => .err e
              | .ok p5 => .ok (fn arg) p5
        | none => .err ⟨"Unknown function \"" ++ symbol ++ "\".", p2⟩
      else
        match t.constants.lookup symbol with
        | some v => .ok v p2
        | none => .err ⟨"Unknown symbol \"" ++ symbol ++ "\".", p2⟩

end

/-- `Calc::ParseExpression`: one sum followed by the end-of-input check. -/
def parseExpression (t : Tables) (src : List Char) (fuel pos : Nat) : Res ℚ :=
  match parseSum t src fuel pos with
  | .err e => .err e
  | .fuelOut => .fuelOut
  | .ok v p1 =>
    let p2 := skipWhite src p1
    if peekChar src p2 ≠ nulChar then
      .err ⟨"Syntax error.", p2⟩
    else
      .ok v p2

/-- Fuel sufficient for any parse starting at position 0 (proved below). -/
def sumFuel (src : List Char) : Nat := 3 * src.length + 4

/-- The state of a freshly constructed `Calc` object: bound source text,
cursor at zero, and the constructor-initialized symbol tables. -/
structure CalcState where
  src : List Char
  pos : Nat
  tables : Tables

/-- `Calc::Calc`: bind the source, reset the cursor, build the tables. -/
def mkCalc (src : List Char) : CalcState := ⟨src, 0, defaultTables⟩

/-- `Calc::Evaluate` on a given object state. -/
def CalcState.run (c : CalcState) : Res ℚ :=
  parseExpression c.tables c.src (sumFuel c.src) c.pos

/-- Construct a fresh `Calc` for the source and call `Evaluate`, the usage
pattern of every caller in the repository. -/
def evaluate (src : List Char) : Res ℚ :=
  (mkCalc src).run

/-- `evaluate` on a Lean string literal. -/
def evaluateStr (s : String) : Res ℚ :=
  evaluate s.data

/-- Two independent evaluations of the same source, each constructing its
own fresh `Calc` object. -/
def evaluateTwice (src : List Char) : Res ℚ × Res ℚ :=
  ((mkCalc src).run, (mkCalc src).run)

/-! ## Cursor primitives: basic facts -/

theorem peekChar_of_ge {src : List Char} {pos : Nat} (h : src.length ≤ pos) :
    peekChar src pos = nulChar := by
  simp [peekChar, h]

theorem lt_of_peekChar_ne_nul {src : List Char} {pos : Nat}
    (h : peekChar src pos ≠ nulChar) : pos < src.length := by
  by_contra hc
  exact h (peekChar_of_ge (Nat.le_of_not_lt hc))

theorem getChar_fst (src : List Char) (pos : Nat) :
    (getChar src pos).1 = peekChar src pos := by
  simp only [getChar]
  split <;> rfl

theorem getChar_snd_of_ne {src : List Char} {pos : Nat}
    (h : peekChar src pos ≠ nulChar) : (getChar src pos).2 = pos + 1 := by
  simp [getChar, h]

theorem getChar_snd_of_eq {src : List Char} {pos : Nat}
    (h : peekChar src pos = nulChar) : (getChar src pos).2 = pos := by
  simp [getChar, h]

theorem le_getChar_snd (src : List Char) (pos : Nat) :
    pos ≤ (getChar src pos).2 := by
  by_cases h : peekChar src pos = nulChar
  · rw [getChar_snd_of_eq h]
  · rw [getChar_snd_of_ne h]
    exact Nat.le_succ pos

theorem getChar_snd_le_len {src : List Char} {pos : Nat}
    (h : pos ≤ src.length) : (getChar src pos).2 ≤ src.length := by
  by_cases hn : peekChar src pos = nulChar
  · rw [getChar_snd_of_eq hn]; exact h
  · rw [getChar_snd_of_ne hn]
    exact lt_of_peekChar_ne_nul hn

theorem isspaceC_nulChar : isspaceC nulChar = false := by decide

theorem isdigitC_nulChar : isdigitC nulChar = false := by decide

theorem isalnumC_nulChar : isalnumC nulChar = false := by decide

theorem isalphaC_nulChar : isalphaC nulChar = false := by decide

theorem peekChar_ne_nul_of_pred {pred : Char → Bool} {src : List Char}
    {pos : Nat} (hp : pred nulChar = false)
    (h : pred (peekChar src pos) = true) : peekChar src pos ≠ nulChar := by
  intro hc
  rw [hc, hp] at h
  exact Bool.false_ne_true h

/-! ## The generic character-run scanner -/

theorem le_scanAux_snd (pred : Char → Bool) (src : List Char) :
    ∀ f pos, pos ≤ (scanAux pred src f pos).2 := by
  intro f
  induction f with
  | zero => intro pos; simp [scanAux]
  | succ f ih =>
    intro pos
    simp only [scanAux]
    split
    · exact Nat.le_trans (le_getChar_snd src pos) (ih _)
    · exact Nat.le_refl pos

theorem scanAux_snd_le_len (pred : Char → Bool) (src : List Char) :
    ∀ f pos, pos ≤ src.length → (scanAux pred src f pos).2 ≤ src.length := by
  intro f
  induction f with
  | zero => intro pos h; simpa [scanAux] using h
  | succ f ih =>
    intro pos h
    simp only [scanAux]
    split
    · exact ih _ (getChar_snd_le_len h)
    · exact h

theorem scanAux_fuel {pred : Char → Bool} (hp : pred nulChar = false)
    (src : List Char) :
    ∀ f g pos, src.length - pos ≤ f → src.length - pos ≤ g →
      scanAux pred src f pos = scanAux pred src g pos := by
  intro f
  induction f with
  | zero =>
    intro g pos hf hg
    have hge : src.length ≤ pos := Nat.le_of_sub_eq_zero (Nat.le_zero.mp hf)
    have hnul : peekChar src pos = nulChar := peekChar_of_ge hge
    cases g with
    | zero => rfl
    | succ g => simp [scanAux, hnul, hp]
  | succ f ih =>
    intro g pos hf hg
    cases g with
    | zero =>
      have hge : src.length ≤ pos := Nat.le_of_sub_eq_zero (Nat.le_zero.mp hg)
      have hnul : peekChar src pos = nulChar := peekChar_of_ge hge
      simp [scanAux, hnul, hp]
    | succ g =>
      simp only [scanAux]
      by_cases hc : pred (peekChar src pos) = true
      · have hne : peekChar src pos ≠ nulChar := peekChar_ne_nul_of_pred hp hc
        have hlt : pos < src.length := lt_of_peekChar_ne_nul hne
        have hsnd : (getChar src pos).2 = pos + 1 := getChar_snd_of_ne hne
        simp only [hc, if_true, hsnd]
        rw [ih g (pos + 1) (by omega) (by omega)]
      · simp [hc]

theorem scan_eq_step {pred : Char → Bool} (hp : pred nulChar = false)
    (src : List Char) (pos : Nat) :
    scan pred src pos =
      if pred (peekChar src pos) then
        let st := getChar src pos
        let r := scan pred src st.2
        (st.1 :: r.1, r.2)
      else ([], pos) := by
  by_cases hc : pred (peekChar src pos) = true
  · have hne : peekChar src pos ≠ nulChar := peekChar_ne_nul_of_pred hp hc
    have hlt : pos < src.length := lt_of_peekChar_ne_nul hne
    have hsnd : (getChar src pos).2 = pos + 1 := getChar_snd_of_ne hne
    have hf : src.length - pos = (src.length - (pos + 1)) + 1 := by omega
    simp only [scan, hf, scanAux, hc, if_true, hsnd]
  · cases hz : src.length - pos with
    | zero => simp [scan, hz, scanAux, hc]
    | succ f => simp [scan, hz, scanAux, hc]

theorem le_scan_snd (pred : Char → Bool) (src : List Char) (pos : Nat) :
    pos ≤ (scan pred src pos).2 :=
  le_scanAux_snd pred src _ pos

theorem scan_snd_le_len {pred : Char → Bool} {src : List Char} {pos : Nat}
    (h : pos ≤ src.length) : (scan pred src pos).2 ≤ src.length :=
  scanAux_snd_le_len pred src _ pos h

theorem scan_consumes {pred : Char → Bool} {src : List Char} {pos : Nat}
    (hp : pred nulChar = false) (h : pred (peekChar src pos) = true) :
    pos + 1 ≤ (scan pred src pos).2 := by
  rw [scan_eq_step hp src pos]
  simp only [h, if_true]
  have hne : peekChar src pos ≠ nulChar := peekChar_ne_nul_of_pred hp h
  have hsnd : (getChar src pos).2 = pos + 1 := getChar_snd_of_ne hne
  simpa [hsnd] using le_scan_snd pred src (pos + 1)

/-! ## Whitespace skipping, `Consume`, symbols, and numerals: bounds -/

theorem le_skipWhite (src : List Char) (pos : Nat) : pos ≤ skipWhite src pos :=
  le_scan_snd isspaceC src pos

theorem skipWhite_le_len {src : List Char} {pos : Nat} (h : pos ≤ src.length) :
    skipWhite src pos ≤ src.length :=
  scan_snd_le_len h

theorem consume_ok_bounds {src : List Char} {pos p' : Nat} {c : Char}
    (h : consume src pos c = .ok p') :
    pos ≤ p' ∧ (pos ≤ src.length → p' ≤ src.length) := by
  simp only [consume] at h
  split at h
  · exact absurd h (by simp)
  · injection h with h
    subst h
    exact ⟨le_getChar_snd src pos, fun hl => getChar_snd_le_len hl⟩

theorem consume_ok_of_peek {src : List Char} {pos : Nat} {c : Char}
    (hc : peekChar src pos = c) (hn : c ≠ nulChar) :
    consume src pos c = .ok (pos + 1) := by
  rw [← hc] at hn ⊢
  simp [consume, getChar_snd_of_ne hn]

theorem getSymbol_ok_bounds {src : List Char} {pos p' : Nat} {s : String}
    (h : getSymbol src pos = .ok (s, p')) :
    pos + 1 ≤ p' ∧ (pos ≤ src.length → p' ≤ src.length) := by
  simp only [getSymbol] at h
  split at h
  · exact absurd h (by simp)
  · rename_i halpha
    injection h with h
    have h2 := congrArg Prod.snd h
    simp only at h2
    subst h2
    have halpha' : isalphaC (peekChar src (skipWhite src pos)) = true := by
      revert halpha
      cases isalphaC (peekChar src (skipWhite src pos)) <;> simp
    have hal : isalnumC (peekChar src (skipWhite src pos)) = true := by
      simp [isalnumC, halpha']
    constructor
    · calc pos + 1 ≤ skipWhite src pos + 1 :=
            Nat.succ_le_succ (le_skipWhite src pos)
        _ ≤ (scan isalnumC src (skipWhite src pos)).2 :=
            scan_consumes isalnumC_nulChar hal
    · intro hl
      exact scan_snd_le_len (skipWhite_le_len hl)

theorem munchExponent_ok_bounds {src : List Char} {pos p' : Nat}
    {s : List Char} (h : munchExponent src pos = .ok (s, p')) :
    pos ≤ p' ∧ (pos ≤ src.length → p' ≤ src.length) := by
  simp only [munchExponent] at h
  split at h
  · split at h <;> split at h
    · exact absurd h (by simp)
    · injection h with h
      have h2 := congrArg Prod.snd h
      simp only at h2
      subst h2
      refine ⟨Nat.le_trans (le_getChar_snd src pos)
        (Nat.le_trans (le_getChar_snd src _) (le_scan_snd _ src _)), ?_⟩
      intro hl
      exact scan_snd_le_len (getChar_snd_le_len (getChar_snd_le_len hl))
    · exact absurd h (by simp)
    · injection h with h
      have h2 := congrArg Prod.snd h
      simp only at h2
      subst h2
      refine ⟨Nat.le_trans (le_getChar_snd src pos) (le_scan_snd _ src _), ?_⟩
      intro hl
      exact scan_snd_le_len (getChar_snd_le_len hl)
  · injection h with h
    have h2 := congrArg Prod.snd h
    simp only at h2
    subst h2
    exact ⟨Nat.le_refl _, fun hl => hl⟩

theorem le_munchSign_snd (src : List Char) (pos : Nat) :
    pos ≤ (munchSign src pos).2 := by
  simp only [munchSign]
  split
  · exact le_getChar_snd src pos
  · exact Nat.le_refl pos

theorem munchSign_snd_le_len {src : List Char} {pos : Nat}
    (h : pos ≤ src.length) : (munchSign src pos).2 ≤ src.length := by
  simp only [munchSign]
  split
  · exact getChar_snd_le_len h
  · exact h

theorem le_munchFrac_snd (src : List Char) (pos : Nat) :
    pos ≤ (munchFrac src pos).2 := by
  simp only [munchFrac]
  split
  · exact Nat.le_trans (le_getChar_snd src pos) (le_scan_snd isdigitC src _)
  · exact Nat.le_refl pos

theorem munchFrac_snd_le_len {src : List Char} {pos : Nat}
    (h : pos ≤ src.length) : (munchFrac src pos).2 ≤ src.length := by
  simp only [munchFrac]
  split
  · exact scan_snd_le_len (getChar_snd_le_len h)
  · exact h

theorem munchNumber_ok_bounds {src : List Char} {pos p' : Nat}
    {s : List Char} (h : munchNumber src pos = .ok (s, p')) :
    pos ≤ p' ∧ (pos ≤ src.length → p' ≤ src.length) := by
  simp only [munchNumber] at h
  split at h
  · exact absurd h (by simp)
  · rename_i ex p4 heq
    injection h with h
    have h2 := congrArg Prod.snd h
    simp only at h2
    subst h2
    have hb := munchExponent_ok_bounds heq
    have h1 : pos ≤ (munchSign src pos).2 := le_munchSign_snd src pos
    have h2 : (munchSign src pos).2 ≤ (scan isdigitC src (munchSign src pos).2).2 :=
      le_scan_snd isdigitC src _
    have h3 : (scan isdigitC src (munchSign src pos).2).2 ≤
        (munchFrac src (scan isdigitC src (munchSign src pos).2).2).2 :=
      le_munchFrac_snd src _
    constructor
    · exact Nat.le_trans h1 (Nat.le_trans h2 (Nat.le_trans h3 hb.1))
    · intro hl
      exact hb.2 (munchFrac_snd_le_len (scan_snd_le_len (munchSign_snd_le_len hl)))

theorem getConstant_ok_bounds {src : List Char} {pos p' : Nat} {v : ℚ}
    (h : getConstant src pos = .ok v p') :
    pos ≤ p' ∧ (pos ≤ src.length → p' ≤ src.length) := by
  simp only [getConstant] at h
  split at h
  · exact absurd h (by simp)
  · rename_i s p1 heq
    split at h
    · injection h with h h2
      subst h2
      have hb := munchNumber_ok_bounds heq
      exact ⟨Nat.le_trans (le_skipWhite src pos) hb.1,
        fun hl => hb.2 (skipWhite_le_len hl)⟩
    · exact absurd h (by simp)

theorem getConstant_ne_fuelOut (src : List Char) (pos : Nat) :
    getConstant src pos ≠ .fuelOut := by
  simp only [getConstant]
  split
  · simp
  · split <;> simp

/-! ## The grammar engine: cursor bounds (invariant `pos ≤ p' ≤ len`) -/

theorem parse_bounds (t : Tables) (src : List Char) :
    ∀ f,
      (∀ pos v p', pos ≤ src.length → parseSum t src f pos = .ok v p' →
        pos ≤ p' ∧ p' ≤ src.length) ∧
      (∀ pos v p', pos ≤ src.length → parseProduct t src f pos = .ok v p' →
        pos ≤ p' ∧ p' ≤ src.length) ∧
      (∀ pos v p', pos ≤ src.length → parseTerm t src f pos = .ok v p' →
        pos ≤ p' ∧ p' ≤ src.length) ∧
      (∀ pos v p', pos ≤ src.length → parseIdentifier t src f pos = .ok v p' →
        pos ≤ p' ∧ p' ≤ src.length) := by
  intro f
  induction f with
  | zero =>
    refine ⟨?_, ?_, ?_, ?_⟩ <;> intro pos v p' _ h <;>
      simp [parseSum, parseProduct, parseTerm, parseIdentifier] at h
  | succ f ih =>
    obtain ⟨ihS, ihP, ihT, ihI⟩ := ih
    refine ⟨?_, ?_, ?_, ?_⟩
    · -- ParseSum
      intro pos v p' hl h
      simp only [parseSum] at h
      cases hp : parseProduct t src f pos with
      | err e => rw [hp] at h; exact absurd h (by simp)
      | fuelOut => rw [hp] at h; exact absurd h (by simp)
      | ok left p1 =>
        rw [hp] at h
        dsimp only at h
        have hb1 := ihP pos left p1 hl hp
        have hw1 : p1 ≤ skipWhite src p1 := le_skipWhite src p1
        have hw2 : skipWhite src p1 ≤ src.length := skipWhite_le_len hb1.2
        by_cases hop : peekChar src (skipWhite src p1) = '+'
        · rw [if_pos hop] at h
          have hne : peekChar src (skipWhite src p1) ≠ nulChar := by
            rw [hop]; decide
          have hg : (getChar src (skipWhite src p1)).2 = skipWhite src p1 + 1 :=
            getChar_snd_of_ne hne
          have hlt : skipWhite src p1 < src.length := lt_of_peekChar_ne_nul hne
          cases hq : parseProduct t src f (getChar src (skipWhite src p1)).2 with
          | err e => rw [hq] at h; exact absurd h (by simp)
          | fuelOut => rw [hq] at h; exact absurd h (by simp)
          | ok right p3 =>
            rw [hq] at h
            injection h with h1 h2
            subst h2
            have hb2 := ihP _ right p3 (by omega) hq
            rw [hg] at hb2
            omega
        · rw [if_neg hop] at h
          by_cases hop2 : peekChar src (skipWhite src p1) = '-'
          · rw [if_pos hop2] at h
            have hne : peekChar src (skipWhite src p1) ≠ nulChar := by
              rw [hop2]; decide
            have hg : (getChar src (skipWhite src p1)).2 = skipWhite src p1 + 1 :=
              getChar_snd_of_ne hne
            have hlt : skipWhite src p1 < src.length := lt_of_peekChar_ne_nul hne
            cases hq : parseProduct t src f (getChar src (skipWhite src p1)).2 with
            | err e => rw [hq] at h; exact absurd h (by simp)
            | fuelOut => rw [hq] at h; exact absurd h (by simp)
            | ok right p3 =>
              rw [hq] at h
              injection h with h1 h2
              subst h2
              have hb2 := ihP _ right p3 (by omega) hq
              rw [hg] at hb2
              omega
          · rw [if_neg hop2] at h
            injection h with h1 h2
            subst h2
            omega
    · -- ParseProduct
      intro pos v p' hl h
      simp only [parseProduct] at h
      cases hp : parseTerm t src f pos with
      | err e => rw [hp] at h; exact absurd h (by simp)
      | fuelOut => rw [hp] at h; exact absurd h (by simp)
      | ok left p1 =>
        rw [hp] at h
        dsimp only at h
        have hb1 := ihT pos left p1 hl hp
        have hw1 : p1 ≤ skipWhite src p1 := le_skipWhite src p1
        have hw2 : skipWhite src p1 ≤ src.length := skipWhite_le_len hb1.2
        by_cases hop : peekChar src (skipWhite src p1) = '*'
        · rw [if_pos hop] at h
          have hne : peekChar src (skipWhite src p1) ≠ nulChar := by
            rw [hop]; decide
          have hg : (getChar src (skipWhite src p1)).2 = skipWhite src p1 + 1 :=
            getChar_snd_of_ne hne
          have hlt : skipWhite src p1 < src.length := lt_of_peekChar_ne_nul hne
          cases hq : parseSum t src f (getChar src (skipWhite src p1)).2 with
          | err e => rw [hq] at h; exact absurd h (by simp)
          | fuelOut => rw [hq] at h; exact absurd h (by simp)
          | ok right p3 =>
            rw [hq] at h
            injection h with h1 h2
            subst h2
            have hb2 := ihS _ right p3 (by omega) hq
            rw [hg] at hb2
            omega
        · rw [if_neg hop] at h
          by_cases hop2 : peekChar src (skipWhite src p1) = '/'
          · rw [if_pos hop2] at h
            have hne : peekChar src (skipWhite src p1) ≠ nulChar := by
              rw [hop2]; decide
            have hg : (getChar src (skipWhite src p1)).2 = skipWhite src p1 + 1 :=
              getChar_snd_of_ne hne
            have hlt : skipWhite src p1 < src.length := lt_of_peekChar_ne_nul hne
            cases hq : parseSum t src f (getChar src (skipWhite src p1)).2 with
            | err e => rw [hq] at h; exact absurd h (by simp)
            | fuelOut => rw [hq] at h; exact absurd h (by simp)
            | ok right p3 =>
              rw [hq] at h
              injection h with h1 h2
              subst h2
              have hb2 := ihS _ right p3 (by omega) hq
              rw [hg] at hb2
              omega
          · rw [if_neg hop2] at h
            injection h with h1 h2
            subst h2
            omega
    · -- ParseTerm
      intro pos v p' hl h
      simp only [parseTerm] at h
      have hw1 : pos ≤ skipWhite src pos := le_skipWhite src pos
      have hw2 : skipWhite src pos ≤ src.length := skipWhite_le_len hl
      by_cases hpar : peekChar src (skipWhite src pos) = '('
      · rw [if_pos hpar] at h
        have hne : peekChar src (skipWhite src pos) ≠ nulChar := by
          rw [hpar]; decide
        have hg : (getChar src (skipWhite src pos)).2 = skipWhite src pos + 1 :=
          getChar_snd_of_ne hne
        have hlt : skipWhite src pos < src.length := lt_of_peekChar_ne_nul hne
        cases hq : parseSum t src f (getChar src (skipWhite src pos)).2 with
        | err e => rw [hq] at h; exact absurd h (by simp)
        | fuelOut => rw [hq] at h; exact absurd h (by simp)
        | ok w p2 =>
          rw [hq] at h
          dsimp only at h
          have hb1 := ihS _ w p2 (by omega) hq
          rw [hg] at hb1
          have hw3 : p2 ≤ skipWhite src p2 := le_skipWhite src p2
          have hw4 : skipWhite src p2 ≤ src.length := skipWhite_le_len hb1.2
          cases hc : consume src (skipWhite src p2) ')' with
          | error e => rw [hc] at h; exact absurd h (by simp)
          | ok p4 =>
            rw [hc] at h
            injection h with h1 h2
            subst h2
            have hb2 := consume_ok_bounds hc
            have := hb2.2 hw4
            have := hb2.1
            omega
      · rw [if_neg hpar] at h
        by_cases hdbl : isFirstCharOfDouble (peekChar src (skipWhite src pos)) = true
        · rw [if_pos hdbl] at h
          have hb := getConstant_ok_bounds h
          exact ⟨Nat.le_trans hw1 hb.1, hb.2 hw2⟩
        · rw [if_neg hdbl] at h
          by_cases halpha : isalphaC (peekChar src (skipWhite src pos)) = true
          · rw [if_pos halpha] at h
            have hb := ihI _ v p' hw2 h
            exact ⟨Nat.le_trans hw1 hb.1, hb.2⟩
          · rw [if_neg halpha] at h
            exact absurd h (by simp)
    · -- ParseIdentifier
      intro pos v p' hl h
      simp only [parseIdentifier] at h
      cases hs : getSymbol src pos with
      | error e => rw [hs] at h; exact absurd h (by simp)
      | ok sp =>
        obtain ⟨symbol, p1⟩ := sp
        rw [hs] at h
        dsimp only at h
        have hb1 := getSymbol_ok_bounds hs
        have hb1' := hb1.2 hl
        have hw1 : p1 ≤ skipWhite src p1 := le_skipWhite src p1
        have hw2 : skipWhite src p1 ≤ src.length := skipWhite_le_len hb1'
        by_cases hpar : peekChar src (skipWhite src p1) = '('
        · rw [if_pos hpar] at h
          cases hf : t.functions.lookup symbol with
          | none => rw [hf] at h; exact absurd h (by simp)
          | some fn =>
            rw [hf] at h
            dsimp only at h
            cases hc : consume src (skipWhite src p1) '(' with
            | error e => rw [hc] at h; exact absurd h (by simp)
            | ok p3 =>
              rw [hc] at h
              dsimp only at h
              have hb2 := consume_ok_bounds hc
              have hb2' := hb2.2 hw2
              cases hq : parseSum t src f p3 with
              | err e => rw [hq] at h; exact absurd h (by simp)
              | fuelOut => rw [hq] at h; exact absurd h (by simp)
              | ok arg p4 =>
                rw [hq] at h
                dsimp only at h
                have hb3 := ihS p3 arg p4 hb2' hq
                cases hc2 : consume src p4 ')' with
                | error e => rw [hc2] at h; exact absurd h (by simp)
                | ok p5 =>
                  rw [hc2] at h
                  injection h with h1 h2
                  subst h2
                  have hb4 := consume_ok_bounds hc2
                  have := hb4.2 hb3.2
                  have := hb4.1
                  have := hb2.1
                  omega
        · rw [if_neg hpar] at h
          cases hk : t.constants.lookup symbol with
          | none => rw [hk] at h; exact absurd h (by simp)
          | some w =>
            rw [hk] at h
            injection h with h1 h2
            subst h2
            omega

/-! ## Termination: the fuel used by `evaluate` is always sufficient -/

theorem parse_total (t : Tables) (src : List Char) :
    ∀ f,
      (∀ pos, pos ≤ src.length → 3 * (src.length - pos) + 4 ≤ f →
        parseSum t src f pos ≠ .fuelOut) ∧
      (∀ pos, pos ≤ src.length → 3 * (src.length - pos) + 3 ≤ f →
        parseProduct t src f pos ≠ .fuelOut) ∧
      (∀ pos, pos ≤ src.length → 3 * (src.length - pos) + 2 ≤ f →
        parseTerm t src f pos ≠ .fuelOut) ∧
      (∀ pos, pos ≤ src.length → 3 * (src.length - pos) + 1 ≤ f →
        parseIdentifier t src f pos ≠ .fuelOut) := by
  intro f
  induction f with
  | zero =>
    refine ⟨?_, ?_, ?_, ?_⟩ <;> intro pos hl hb <;> omega
  | succ f ih =>
    obtain ⟨ihS, ihP, ihT, ihI⟩ := ih
    refine ⟨?_, ?_, ?_, ?_⟩
    · -- ParseSum
      intro pos hl hb
      simp only [parseSum]
      cases hp : parseProduct t src f pos with
      | err e => simp
      | fuelOut => exact absurd hp (ihP pos hl (by omega))
      | ok left p1 =>
        dsimp only
        have hb1 := ((parse_bounds t src f).2.1) pos left p1 hl hp
        have hw1 : p1 ≤ skipWhite src p1 := le_skipWhite src p1
        have hw2 : skipWhite src p1 ≤ src.length := skipWhite_le_len hb1.2
        by_cases hop : peekChar src (skipWhite src p1) = '+'
        · rw [if_pos hop]
          have hne : peekChar src (skipWhite src p1) ≠ nulChar := by
            rw [hop]; decide
          have hg : (getChar src (skipWhite src p1)).2 = skipWhite src p1 + 1 :=
            getChar_snd_of_ne hne
          have hlt : skipWhite src p1 < src.length := lt_of_peekChar_ne_nul hne
          cases hq : parseProduct t src f (getChar src (skipWhite src p1)).2 with
          | err e => simp
          | fuelOut =>
            rw [hg] at hq
            exact absurd hq (ihP _ (by omega) (by omega))
          | ok right p3 => simp
        · rw [if_neg hop]
          by_cases hop2 : peekChar src (skipWhite src p1) = '-'
          · rw [if_pos hop2]
            have hne : peekChar src (skipWhite src p1) ≠ nulChar := by
              rw [hop2]; decide
            have hg : (getChar src (skipWhite src p1)).2 = skipWhite src p1 + 1 :=
              getChar_snd_of_ne hne
            have hlt : skipWhite src p1 < src.length := lt_of_peekChar_ne_nul hne
            cases hq : parseProduct t src f (getChar src (skipWhite src p1)).2 with
            | err e => simp
            | fuelOut =>
              rw [hg] at hq
              exact absurd hq (ihP _ (by omega) (by omega))
            | ok right p3 => simp
          · rw [if_neg hop2]
            simp
    · -- ParseProduct
      intro pos hl hb
      simp only [parseProduct]
      cases hp : parseTerm t src f pos with
      | err e => simp
      | fuelOut => exact absurd hp (ihT pos hl (by omega))
      | ok left p1 =>
        dsimp only
        have hb1 := ((parse_bounds t src f).2.2.1) pos left p1 hl hp
        have hw1 : p1 ≤ skipWhite src p1 := le_skipWhite src p1
        have hw2 : skipWhite src p1 ≤ src.length := skipWhite_le_len hb1.2
        by_cases hop : peekChar src (skipWhite src p1) = '*'
        · rw [if_pos hop]
          have hne : peekChar src (skipWhite src p1) ≠ nulChar := by
            rw [hop]; decide
          have hg : (getChar src (skipWhite src p1)).2 = skipWhite src p1 + 1 :=
            getChar_snd_of_ne hne
          have hlt : skipWhite src p1 < src.length := lt_of_peekChar_ne_nul hne
          cases hq : parseSum t src f (getChar src (skipWhite src p1)).2 with
          | err e => simp
          | fuelOut =>
            rw [hg] at hq
            exact absurd hq (ihS _ (by omega) (by omega))
          | ok right p3 => simp
        · rw [if_neg hop]
          by_cases hop2 : peekChar src (skipWhite src p1) = '/'
          · rw [if_pos hop2]
            have hne : peekChar src (skipWhite src p1) ≠ nulChar := by
              rw [hop2]; decide
            have hg : (getChar src (skipWhite src p1)).2 = skipWhite src p1 + 1 :=
              getChar_snd_of_ne hne
            have hlt : skipWhite src p1 < src.length := lt_of_peekChar_ne_nul hne
            cases hq : parseSum t src f (getChar src (skipWhite src p1)).2 with
            | err e => simp
            | fuelOut =>
              rw [hg] at hq
              exact absurd hq (ihS _ (by omega) (by omega))
            | ok right p3 => simp
          · rw [if_neg hop2]
            simp
    · -- ParseTerm
      intro pos hl hb
      simp only [parseTerm]
      have hw1 : pos ≤ skipWhite src pos := le_skipWhite src pos
      have hw2 : skipWhite src pos ≤ src.length := skipWhite_le_len hl
      by_cases hpar : peekChar src (skipWhite src pos) = '('
      · rw [if_pos hpar]
        have hne : peekChar src (skipWhite src pos) ≠ nulChar := by
          rw [hpar]; decide
        have hg : (getChar src (skipWhite src pos)).2 = skipWhite src pos + 1 :=
          getChar_snd_of_ne hne
        have hlt : skipWhite src pos < src.length := lt_of_peekChar_ne_nul hne
        cases hq : parseSum t src f (getChar src (skipWhite src pos)).2 with
        | err e => simp
        | fuelOut =>
          rw [hg] at hq
          exact absurd hq (ihS _ (by omega) (by omega))
        | ok w p2 =>
          dsimp only
          cases hc : consume src (skipWhite src p2) ')' with
          | error e => simp
          | ok p4 => simp
      · rw [if_neg hpar]
        by_cases hdbl : isFirstCharOfDouble (peekChar src (skipWhite src pos)) = true
        · rw [if_pos hdbl]
          exact getConstant_ne_fuelOut src (skipWhite src pos)
        · rw [if_neg hdbl]
          by_cases halpha : isalphaC (peekChar src (skipWhite src pos)) = true
          · rw [if_pos halpha]
            exact ihI _ hw2 (by omega)
          · rw [if_neg halpha]
            simp
    · -- ParseIdentifier
      intro pos hl hb
      simp only [parseIdentifier]
      cases hs : getSymbol src pos with
      | error e => simp
      | ok sp =>
        obtain ⟨symbol, p1⟩ := sp
        dsimp only
        have hb1 := getSymbol_ok_bounds hs
        have hb1' := hb1.2 hl
        have hw1 : p1 ≤ skipWhite src p1 := le_skipWhite src p1
        have hw2 : skipWhite src p1 ≤ src.length := skipWhite_le_len hb1'
        by_cases hpar : peekChar src (skipWhite src p1) = '('
        · rw [if_pos hpar]
          cases hf : t.functions.lookup symbol with
          | none => simp
          | some fn =>
            dsimp only
            cases hc : consume src (skipWhite src p1) '(' with
            | error e => simp
            | ok p3 =>
              dsimp only
              have hc' : consume src (skipWhite src p1) '(' =
                  .ok (skipWhite src p1 + 1) :=
                consume_ok_of_peek hpar (by decide)
              rw [hc'] at hc
              injection hc with hc
              subst hc
              have hlt : skipWhite src p1 < src.length := by
                have : peekChar src (skipWhite src p1) ≠ nulChar := by
                  rw [hpar]; decide
                exact lt_of_peekChar_ne_nul this
              cases hq : parseSum t src f (skipWhite src p1 + 1) with
              | err e => simp
              | fuelOut =>
                exact absurd hq (ihS _ (by omega) (by omega))
              | ok arg p4 =>
                dsimp only
                cases hc2 : consume src p4 ')' with
                | error e => simp
                | ok p5 => simp
        · rw [if_neg hpar]
          cases hk : t.constants.lookup symbol with
          | none => simp
          | some w => simp

/-! ## Fuel irrelevance: adding fuel never changes a completed parse -/

theorem parse_fuel_succ (t : Tables) (src : List Char) :
    ∀ f,
      (∀ pos, parseSum t src f pos ≠ .fuelOut →
        parseSum t src (f + 1) pos = parseSum t src f pos) ∧
      (∀ pos, parseProduct t src f pos ≠ .fuelOut →
        parseProduct t src (f + 1) pos = parseProduct t src f pos) ∧
      (∀ pos, parseTerm t src f pos ≠ .fuelOut →
        parseTerm t src (f + 1) pos = parseTerm t src f pos) ∧
      (∀ pos, parseIdentifier t src f pos ≠ .fuelOut →
        parseIdentifier t src (f + 1) pos = parseIdentifier t src f pos) := by
  intro f
  induction f with
  | zero =>
    refine ⟨?_, ?_, ?_, ?_⟩ <;> intro pos hne <;> exact absurd (by
      simp [parseSum, parseProduct, parseTerm, parseIdentifier]) hne
  | succ f ih =>
    obtain ⟨ihS, ihP, ihT, ihI⟩ := ih
    refine ⟨?_, ?_, ?_, ?_⟩
    · -- ParseSum
      intro pos hne
      simp only [parseSum] at hne ⊢
      have hPne : parseProduct t src f pos ≠ .fuelOut := by
        intro hcon
        rw [hcon] at hne
        exact hne rfl
      rw [ihP pos hPne]
      cases hp : parseProduct t src f pos with
      | err e => rfl
      | fuelOut => exact absurd hp hPne
      | ok left p1 =>
        rw [hp] at hne
        dsimp only at hne ⊢
        by_cases hop : peekChar src (skipWhite src p1) = '+'
        · simp only [if_pos hop] at hne ⊢
          have hQne : parseProduct t src f (getChar src (skipWhite src p1)).2 ≠
              .fuelOut := by
            intro hcon
            rw [hcon] at hne
            exact hne rfl
          rw [ihP _ hQne]
        · simp only [if_neg hop] at hne ⊢
          by_cases hop2 : peekChar src (skipWhite src p1) = '-'
          · simp only [if_pos hop2] at hne ⊢
            have hQne : parseProduct t src f (getChar src (skipWhite src p1)).2 ≠
                .fuelOut := by
              intro hcon
              rw [hcon] at hne
              exact hne rfl
            rw [ihP _ hQne]
          · simp only [if_neg hop2]
    · -- ParseProduct
      intro pos hne
      simp only [parseProduct] at hne ⊢
      have hPne : parseTerm t src f pos ≠ .fuelOut := by
        intro hcon
        rw [hcon] at hne
        exact hne rfl
      rw [ihT pos hPne]
      cases hp : parseTerm t src f pos with
      | err e => rfl
      | fuelOut => exact absurd hp hPne
      | ok left p1 =>
        rw [hp] at hne
        dsimp only at hne ⊢
        by_cases hop : peekChar src (skipWhite src p1) = '*'
        · simp only [if_pos hop] at hne ⊢
          have hQne : parseSum t src f (getChar src (skipWhite src p1)).2 ≠
              .fuelOut := by
            intro hcon
            rw [hcon] at hne
            exact hne rfl
          rw [ihS _ hQne]
        · simp only [if_neg hop] at hne ⊢
          by_cases hop2 : peekChar src (skipWhite src p1) = '/'
          · simp only [if_pos hop2] at hne ⊢
            have hQne : parseSum t src f (getChar src (skipWhite src p1)).2 ≠
                .fuelOut := by
              intro hcon
              rw [hcon] at hne
              exact hne rfl
            rw [ihS _ hQne]
          · simp only [if_neg hop2]
    · -- ParseTerm
      intro pos hne
      simp only [parseTerm] at hne ⊢
      by_cases hpar : peekChar src (skipWhite src pos) = '('
      · simp only [if_pos hpar] at hne ⊢
        have hQne : parseSum t src f (getChar src (skipWhite src pos)).2 ≠
            .fuelOut := by
          intro hcon
          rw [hcon] at hne
          exact hne rfl
        rw [ihS _ hQne]
      · simp only [if_neg hpar] at hne ⊢
        by_cases hdbl : isFirstCharOfDouble (peekChar src (skipWhite src pos)) = true
        · simp only [if_pos hdbl]
        · simp only [if_neg hdbl] at hne ⊢
          by_cases halpha : isalphaC (peekChar src (skipWhite src pos)) = true
          · simp only [if_pos halpha] at hne ⊢
            exact ihI _ hne
          · simp only [if_neg halpha]
    · -- ParseIdentifier
      intro pos hne
      simp only [parseIdentifier] at hne ⊢
      cases hs : getSymbol src pos with
      | error e => rfl
      | ok sp =>
        obtain ⟨symbol, p1⟩ := sp
        rw [hs] at hne
        dsimp only at hne ⊢
        by_cases hpar : peekChar src (skipWhite src p1) = '('
        · simp only [if_pos hpar] at hne ⊢
          cases hf : t.functions.lookup symbol with
          | none => rfl
          | some fn =>
            rw [hf] at hne
            dsimp only at hne ⊢
            cases hc : consume src (skipWhite src p1) '(' with
            | error e => rfl
            | ok p3 =>
              rw [hc] at hne
              dsimp only at hne ⊢
              have hQne : parseSum t src f p3 ≠ .fuelOut := by
                intro hcon
                rw [hcon] at hne
                exact hne rfl
              rw [ihS _ hQne]
        · simp only [if_neg hpar]

theorem parseSum_fuel_mono (t : Tables) (src : List Char) {f : Nat} (pos : Nat)
    (hne : parseSum t src f pos ≠ .fuelOut) :
    ∀ g, f ≤ g → parseSum t src g pos = parseSum t src f pos := by
  intro g hle
  induction g, hle using Nat.le_induction with
  | base => rfl
  | succ g hle ih =>
    have hg : parseSum t src g pos ≠ .fuelOut := by
      rw [ih]; exact hne
    rw [(parse_fuel_succ t src g).1 pos hg, ih]

/-! ## Truncation at an embedded NUL: the parser never reads past it -/

section TakeNul

variable {src : List Char} {p : Nat}

theorem lt_len_of_nul (hnul : src[p]? = some nulChar) : p < src.length := by
  by_contra hc
  rw [List.getElem?_eq_none (Nat.le_of_not_lt hc)] at hnul
  exact Option.noConfusion hnul

theorem length_take_nul (hnul : src[p]? = some nulChar) :
    (src.take p).length = p := by
  have := lt_len_of_nul hnul
  simp [List.length_take]
  omega

theorem peekChar_at_nul (hnul : src[p]? = some nulChar) :
    peekChar src p = nulChar := by
  simp only [peekChar, List.getD_eq_getElem?_getD, hnul, Option.getD_some]
  split <;> rfl

theorem peekChar_take (hnul : src[p]? = some nulChar) {pos : Nat}
    (hpos : pos ≤ p) : peekChar (src.take p) pos = peekChar src pos := by
  rcases Nat.lt_or_ge pos p with hlt | hge
  · have hp := lt_len_of_nul hnul
    have h1 : ¬ (src.take p).length ≤ pos := by
      rw [length_take_nul hnul]; omega
    have h2 : ¬ src.length ≤ pos := by omega
    simp only [peekChar, ge_iff_le, if_neg h1, if_neg h2,
      List.getD_eq_getElem?_getD, List.getElem?_take_of_lt hlt]
  · have hpp : pos = p := Nat.le_antisymm hpos hge
    subst hpp
    rw [peekChar_at_nul hnul]
    apply peekChar_of_ge
    rw [length_take_nul hnul]

theorem peekChar_take_ne_nul (hnul : src[p]? = some nulChar) {pos : Nat}
    (hpos : pos ≤ p) (hne : peekChar src pos ≠ nulChar) : pos < p := by
  rcases Nat.lt_or_ge pos p with hlt | hge
  · exact hlt
  · have hpp : pos = p := Nat.le_antisymm hpos hge
    subst hpp
    exact absurd (peekChar_at_nul hnul) hne

theorem getChar_take (hnul : src[p]? = some nulChar) {pos : Nat}
    (hpos : pos ≤ p) : getChar (src.take p) pos = getChar src pos := by
  simp only [getChar, peekChar_take hnul hpos]

theorem getChar_snd_le_nul (hnul : src[p]? = some nulChar) {pos : Nat}
    (hpos : pos ≤ p) : (getChar src pos).2 ≤ p := by
  by_cases hne : peekChar src pos = nulChar
  · rw [getChar_snd_of_eq hne]; exact hpos
  · rw [getChar_snd_of_ne hne]
    exact peekChar_take_ne_nul hnul hpos hne

theorem scanAux_take {pred : Char → Bool} (hp : pred nulChar = false)
    (hnul : src[p]? = some nulChar) :
    ∀ f pos, pos ≤ p →
      scanAux pred (src.take p) f pos = scanAux pred src f pos := by
  intro f
  induction f with
  | zero => intro pos _; rfl
  | succ f ih =>
    intro pos hpos
    simp only [scanAux, peekChar_take hnul hpos]
    by_cases hc : pred (peekChar src pos) = true
    · have hne : peekChar src pos ≠ nulChar := peekChar_ne_nul_of_pred hp hc
      have hlt : pos < p := peekChar_take_ne_nul hnul hpos hne
      have hsnd : (getChar src pos).2 = pos + 1 := getChar_snd_of_ne hne
      simp only [hc, if_true, getChar_take hnul hpos, hsnd]
      rw [ih (pos + 1) (by omega)]
    · simp [hc]

theorem scan_take {pred : Char → Bool} (hp : pred nulChar = false)
    (hnul : src[p]? = some nulChar) {pos : Nat} (hpos : pos ≤ p) :
    scan pred (src.take p) pos = scan pred src pos := by
  have hlen : (src.take p).length = p := length_take_nul hnul
  have hll : p ≤ src.length := Nat.le_of_lt (lt_len_of_nul hnul)
  calc scan pred (src.take p) pos
      = scanAux pred (src.take p) ((src.take p).length - pos) pos := rfl
    _ = scanAux pred (src.take p) (src.length - pos) pos := by
        apply scanAux_fuel hp
        · rw [hlen]
        · rw [hlen]; omega
    _ = scanAux pred src (src.length - pos) pos :=
        scanAux_take hp hnul _ pos hpos
    _ = scan pred src pos := rfl

theorem scan_snd_le_nul {pred : Char → Bool} (hp : pred nulChar = false)
    (hnul : src[p]? = some nulChar) {pos : Nat} (hpos : pos ≤ p) :
    (scan pred src pos).2 ≤ p := by
  rw [← scan_take hp hnul hpos]
  have := @scan_snd_le_len pred (src.take p) pos
    (by rw [length_take_nul hnul]; exact hpos)
  rwa [length_take_nul hnul] at this

theorem skipWhite_take (hnul : src[p]? = some nulChar) {pos : Nat}
    (hpos : pos ≤ p) : skipWhite (src.take p) pos = skipWhite src pos := by
  simp only [skipWhite, scan_take isspaceC_nulChar hnul hpos]

theorem skipWhite_le_nul (hnul : src[p]? = some nulChar) {pos : Nat}
    (hpos : pos ≤ p) : skipWhite src pos ≤ p :=
  scan_snd_le_nul isspaceC_nulChar hnul hpos

theorem consume_take (hnul : src[p]? = some nulChar) {pos : Nat}
    (hpos : pos ≤ p) (c : Char) :
    consume (src.take p) pos c = consume src pos c := by
  simp only [consume, peekChar_take hnul hpos, getChar_take hnul hpos]

theorem getSymbol_take (hnul : src[p]? = some nulChar) {pos : Nat}
    (hpos : pos ≤ p) : getSymbol (src.take p) pos = getSymbol src pos := by
  have hw := skipWhite_le_nul hnul hpos
  simp only [getSymbol, skipWhite_take hnul hpos, peekChar_take hnul hw,
    scan_take isalnumC_nulChar hnul hw]

theorem munchExponent_take (hnul : src[p]? = some nulChar) {pos : Nat}
    (hpos : pos ≤ p) :
    munchExponent (src.take p) pos = munchExponent src pos := by
  have hg1 : (getChar src pos).2 ≤ p := getChar_snd_le_nul hnul hpos
  have hg2 : (getChar src (getChar src pos).2).2 ≤ p := getChar_snd_le_nul hnul hg1
  simp only [munchExponent, peekChar_take hnul hpos, getChar_take hnul hpos,
    peekChar_take hnul hg1, getChar_take hnul hg1]
  by_cases hm : peekChar src pos = 'e' ∨ peekChar src pos = 'E'
  · simp only [if_pos hm]
    by_cases hs : peekChar src (getChar src pos).2 = '+' ∨
        peekChar src (getChar src pos).2 = '-'
    · simp only [if_pos hs]
      simp only [peekChar_take hnul hg2, scan_take isdigitC_nulChar hnul hg2]
    · simp only [if_neg hs]
      simp only [peekChar_take hnul hg1, scan_take isdigitC_nulChar hnul hg1]
  · simp only [if_neg hm]

theorem munchSign_take (hnul : src[p]? = some nulChar) {pos : Nat}
    (hpos : pos ≤ p) : munchSign (src.take p) pos = munchSign src pos := by
  simp only [munchSign, peekChar_take hnul hpos, getChar_take hnul hpos]

theorem munchSign_snd_le_nul (hnul : src[p]? = some nulChar) {pos : Nat}
    (hpos : pos ≤ p) : (munchSign src pos).2 ≤ p := by
  simp only [munchSign]
  split
  · exact getChar_snd_le_nul hnul hpos
  · exact hpos

theorem munchFrac_take (hnul : src[p]? = some nulChar) {pos : Nat}
    (hpos : pos ≤ p) : munchFrac (src.take p) pos = munchFrac src pos := by
  have hg1 : (getChar src pos).2 ≤ p := getChar_snd_le_nul hnul hpos
  simp only [munchFrac, peekChar_take hnul hpos, getChar_take hnul hpos,
    scan_take isdigitC_nulChar hnul hg1]

theorem munchFrac_snd_le_nul (hnul : src[p]? = some nulChar) {pos : Nat}
    (hpos : pos ≤ p) : (munchFrac src pos).2 ≤ p := by
  simp only [munchFrac]
  split
  · exact scan_snd_le_nul isdigitC_nulChar hnul (getChar_snd_le_nul hnul hpos)
  · exact hpos

theorem munchNumber_take (hnul : src[p]? = some nulChar) {pos : Nat}
    (hpos : pos ≤ p) : munchNumber (src.take p) pos = munchNumber src pos := by
  have h1 : (munchSign src pos).2 ≤ p := munchSign_snd_le_nul hnul hpos
  have h2 : (scan isdigitC src (munchSign src pos).2).2 ≤ p :=
    scan_snd_le_nul isdigitC_nulChar hnul h1
  have h3 : (munchFrac src (scan isdigitC src (munchSign src pos).2).2).2 ≤ p :=
    munchFrac_snd_le_nul hnul h2
  simp only [munchNumber, munchSign_take hnul hpos,
    scan_take isdigitC_nulChar hnul h1, munchFrac_take hnul h2,
    munchExponent_take hnul h3]

theorem getConstant_take (hnul : src[p]? = some nulChar) {pos : Nat}
    (hpos : pos ≤ p) : getConstant (src.take p) pos = getConstant src pos := by
  have hw := skipWhite_le_nul hnul hpos
  simp only [getConstant, skipWhite_take hnul hpos, munchNumber_take hnul hw]

theorem parse_take (t : Tables) (hnul : src[p]? = some nulChar) :
    ∀ f,
      (∀ pos, pos ≤ p →
        parseSum t (src.take p) f pos = parseSum t src f pos) ∧
      (∀ pos, pos ≤ p →
        parseProduct t (src.take p) f pos = parseProduct t src f pos) ∧
      (∀ pos, pos ≤ p →
        parseTerm t (src.take p) f pos = parseTerm t src f pos) ∧
      (∀ pos, pos ≤ p →
        parseIdentifier t (src.take p) f pos = parseIdentifier t src f pos) := by
  intro f
  induction f with
  | zero =>
    refine ⟨?_, ?_, ?_, ?_⟩ <;> intro pos _ <;>
      simp [parseSum, parseProduct, parseTerm, parseIdentifier]
  | succ f ih =>
    obtain ⟨ihS, ihP, ihT, ihI⟩ := ih
    refine ⟨?_, ?_, ?_, ?_⟩
    · -- ParseSum
      intro pos hpos
      simp only [parseSum]
      rw [ihP pos hpos]
      cases hp : parseProduct t src f pos with
      | err e => rfl
      | fuelOut => rfl
      | ok left p1 =>
        have hp' : parseProduct t (src.take p) f pos = .ok left p1 := by
          rw [ihP pos hpos]; exact hp
        have hb := (parse_bounds t (src.take p) f).2.1 pos left p1
          (by rw [length_take_nul hnul]; exact hpos) hp'
        have hp1 : p1 ≤ p := by
          have := hb.2; rwa [length_take_nul hnul] at this
        have hw : skipWhite src p1 ≤ p := skipWhite_le_nul hnul hp1
        have hgl : (getChar src (skipWhite src p1)).2 ≤ p :=
          getChar_snd_le_nul hnul hw
        dsimp only
        rw [skipWhite_take hnul hp1, peekChar_take hnul hw]
        by_cases hop : peekChar src (skipWhite src p1) = '+'
        · simp only [if_pos hop, getChar_take hnul hw]
          rw [ihP _ hgl]
        · simp only [if_neg hop]
          by_cases hop2 : peekChar src (skipWhite src p1) = '-'
          · simp only [if_pos hop2, getChar_take hnul hw]
            rw [ihP _ hgl]
          · simp only [if_neg hop2]
    · -- ParseProduct
      intro pos hpos
      simp only [parseProduct]
      rw [ihT pos hpos]
      cases hp : parseTerm t src f pos with
      | err e => rfl
      | fuelOut => rfl
      | ok left p1 =>
        have hp' : parseTerm t (src.take p) f pos = .ok left p1 := by
          rw [ihT pos hpos]; exact hp
        have hb := (parse_bounds t (src.take p) f).2.2.1 pos left p1
          (by rw [length_take_nul hnul]; exact hpos) hp'
        have hp1 : p1 ≤ p := by
          have := hb.2; rwa [length_take_nul hnul] at this
        have hw : skipWhite src p1 ≤ p := skipWhite_le_nul hnul hp1
        have hgl : (getChar src (skipWhite src p1)).2 ≤ p :=
          getChar_snd_le_nul hnul hw
        dsimp only
        rw [skipWhite_take hnul hp1, peekChar_take hnul hw]
        by_cases hop : peekChar src (skipWhite src p1) = '*'
        · simp only [if_pos hop, getChar_take hnul hw]
          rw [ihS _ hgl]
        · simp only [if_neg hop]
          by_cases hop2 : peekChar src (skipWhite src p1) = '/'
          · simp only [if_pos hop2, getChar_take hnul hw]
            rw [ihS _ hgl]
          · simp only [if_neg hop2]
    · -- ParseTerm
      intro pos hpos
      simp only [parseTerm]
      have hw : skipWhite src pos ≤ p := skipWhite_le_nul hnul hpos
      have hgl : (getChar src (skipWhite src pos)).2 ≤ p :=
        getChar_snd_le_nul hnul hw
      rw [skipWhite_take hnul hpos, peekChar_take hnul hw]
      by_cases hpar : peekChar src (skipWhite src pos) = '('
      · simp only [if_pos hpar, getChar_take hnul hw]
        rw [ihS _ hgl]
        cases hq : parseSum t src f (getChar src (skipWhite src pos)).2 with
        | err e => rfl
        | fuelOut => rfl
        | ok w p2 =>
          have hq' : parseSum t (src.take p) f (getChar src (skipWhite src pos)).2 =
              .ok w p2 := by
            rw [ihS _ hgl]; exact hq
          have hb := (parse_bounds t (src.take p) f).1 _ w p2
            (by rw [length_take_nul hnul]; exact hgl) hq'
          have hp2 : p2 ≤ p := by
            have := hb.2; rwa [length_take_nul hnul] at this
          have hw2 : skipWhite src p2 ≤ p := skipWhite_le_nul hnul hp2
          dsimp only
          rw [skipWhite_take hnul hp2, consume_take hnul hw2]
      · simp only [if_neg hpar]
        by_cases hdbl : isFirstCharOfDouble (peekChar src (skipWhite src pos)) = true
        · simp only [if_pos hdbl]
          exact getConstant_take hnul hw
        · simp only [if_neg hdbl]
          by_cases halpha : isalphaC (peekChar src (skipWhite src pos)) = true
          · simp only [if_pos halpha]
            exact ihI _ hw
          · simp only [if_neg halpha]
    · -- ParseIdentifier
      intro pos hpos
      simp only [parseIdentifier]
      rw [getSymbol_take hnul hpos]
      cases hs : getSymbol src pos with
      | error e => rfl
      | ok sp =>
        obtain ⟨symbol, p1⟩ := sp
        have hs' : getSymbol (src.take p) pos = .ok (symbol, p1) := by
          rw [getSymbol_take hnul hpos]; exact hs
        have hb1 := getSymbol_ok_bounds hs'
        have hp1 : p1 ≤ p := by
          have := hb1.2 (by rw [length_take_nul hnul]; exact hpos)
          rwa [length_take_nul hnul] at this
        have hw : skipWhite src p1 ≤ p := skipWhite_le_nul hnul hp1
        dsimp only
        rw [skipWhite_take hnul hp1, peekChar_take hnul hw]
        by_cases hpar : peekChar src (skipWhite src p1) = '('
        · simp only [if_pos hpar]
          cases hf : t.functions.lookup symbol with
          | none => rfl
          | some fn =>
            dsimp only
            rw [consume_take hnul hw]
            cases hc : consume src (skipWhite src p1) '(' with
            | error e => rfl
            | ok p3 =>
              have hc' : consume (src.take p) (skipWhite src p1) '(' = .ok p3 := by
                rw [consume_take hnul hw]; exact hc
              have hb2 := consume_ok_bounds hc'
              have hp3 : p3 ≤ p := by
                have := hb2.2 (by rw [length_take_nul hnul]; exact hw)
                rwa [length_take_nul hnul] at this
              dsimp only
              rw [ihS _ hp3]
              cases hq : parseSum t src f p3 with
              | err e => rfl
              | fuelOut => rfl
              | ok arg p4 =>
                have hq' : parseSum t (src.take p) f p3 = .ok arg p4 := by
                  rw [ihS _ hp3]; exact hq
                have hb3 := (parse_bounds t (src.take p) f).1 p3 arg p4
                  (by rw [length_take_nul hnul]; exact hp3) hq'
                have hp4 : p4 ≤ p := by
                  have := hb3.2; rwa [length_take_nul hnul] at this
                dsimp only
                rw [consume_take hnul hp4]
        · simp only [if_neg hpar]

end TakeNul

/-! ## Top-level assembly: `ParseExpression` and `Evaluate` -/

theorem parseExpression_ne_fuelOut (t : Tables) (src : List Char) {f : Nat}
    (hf : sumFuel src ≤ f) : parseExpression t src f 0 ≠ .fuelOut := by
  have hs : parseSum t src f 0 ≠ .fuelOut :=
    (parse_total t src f).1 0 (Nat.zero_le _)
      (by simp only [sumFuel] at hf; omega)
  simp only [parseExpression]
  cases hq : parseSum t src f 0 with
  | err e => simp
  | fuelOut => exact absurd hq hs
  | ok v p1 =>
    dsimp only
    split <;> simp

theorem parseExpression_fuel (t : Tables) (src : List Char) {f : Nat}
    (hf : sumFuel src ≤ f) :
    parseExpression t src f 0 = parseExpression t src (sumFuel src) 0 := by
  have hs : parseSum t src (sumFuel src) 0 ≠ .fuelOut :=
    (parse_total t src _).1 0 (Nat.zero_le _) (by simp only [sumFuel]; omega)
  simp only [parseExpression]
  rw [parseSum_fuel_mono t src 0 hs f hf]

theorem parseExpression_take (t : Tables) {src : List Char} {p : Nat}
    (hnul : src[p]? = some nulChar) (f : Nat) :
    parseExpression t (src.take p) f 0 = parseExpression t src f 0 := by
  simp only [parseExpression]
  rw [(parse_take t hnul f).1 0 (Nat.zero_le _)]
  cases hq : parseSum t src f 0 with
  | err e => rfl
  | fuelOut => rfl
  | ok v p1 =>
    have hq' : parseSum t (src.take p) f 0 = .ok v p1 := by
      rw [(parse_take t hnul f).1 0 (Nat.zero_le _)]; exact hq
    have hb := (parse_bounds t (src.take p) f).1 0 v p1 (Nat.zero_le _) hq'
    have hp1 : p1 ≤ p := by
      have := hb.2; rwa [length_take_nul hnul] at this
    have hw : skipWhite src p1 ≤ p := skipWhite_le_nul hnul hp1
    dsimp only
    rw [skipWhite_take hnul hp1, peekChar_take hnul hw]

theorem evaluate_eq_parseExpression (src : List Char) :
    evaluate src = parseExpression defaultTables src (sumFuel src) 0 := rfl

theorem evaluate_take {src : List Char} {p : Nat}
    (hnul : src[p]? = some nulChar) :
    evaluate src = evaluate (src.take p) := by
  have hple : p ≤ src.length := Nat.le_of_lt (lt_len_of_nul hnul)
  rw [evaluate_eq_parseExpression, evaluate_eq_parseExpression,
    ← parseExpression_take defaultTables hnul (sumFuel src)]
  exact @parseExpression_fuel defaultTables (src.take p) (sumFuel src)
    (by simp only [sumFuel, length_take_nul hnul]; omega)

/-! ## The claims -/

/-- Claim C1: after `ParseProduct` matches `*` or `/`, the right operand is
parsed by a recursive call into `ParseSum` (a full additive expression), so
`Evaluate("2*3+4")` is `2*(3+4) = 14`, not `10`; the same shape holds for
division, e.g. `Evaluate("8/2+2") = 8/(2+2) = 2`. -/
theorem c1_product_right_operand_full_sum :
    (∀ (t : Tables) (src : List Char) (f pos : Nat) (left : ℚ) (p1 : Nat)
        (right : ℚ) (p3 : Nat),
      parseTerm t src f pos = .ok left p1 →
      peekChar src (skipWhite src p1) = '*' →
      parseSum t src f (skipWhite src p1 + 1) = .ok right p3 →
      parseProduct t src (f + 1) pos = .ok (left * right) p3) ∧
    (∀ (t : Tables) (src : List Char) (f pos : Nat) (left : ℚ) (p1 : Nat)
        (right : ℚ) (p3 : Nat),
      parseTerm t src f pos = .ok left p1 →
      peekChar src (skipWhite src p1) = '/' →
      parseSum t src f (skipWhite src p1 + 1) = .ok right p3 →
      parseProduct t src (f + 1) pos = .ok (left / right) p3) ∧
    evaluateStr "2*3+4" = .ok 14 5 ∧
    (∀ q : Nat, evaluateStr "2*3+4" ≠ .ok 10 q) ∧
    evaluateStr "8/2+2" = .ok 2 5 := by
  refine ⟨?_, ?_, by with_unfolding_all decide, ?_, by with_unfolding_all decide⟩
  · intro t src f pos left p1 right p3 hterm hstar hsum
    have hne : peekChar src (skipWhite src p1) ≠ nulChar := by
      rw [hstar]; decide
    simp only [parseProduct]
    rw [hterm]
    dsimp only
    rw [if_pos hstar, getChar_snd_of_ne hne, hsum]
  · intro t src f pos left p1 right p3 hterm hslash hsum
    have hne : peekChar src (skipWhite src p1) ≠ nulChar := by
      rw [hslash]; decide
    have hns : peekChar src (skipWhite src p1) ≠ '*' := by
      rw [hslash]; decide
    simp only [parseProduct]
    rw [hterm]
    dsimp only
    rw [if_neg hns, if_pos hslash, getChar_snd_of_ne hne, hsum]
  · have h14 : evaluateStr "2*3+4" = .ok 14 5 := by with_unfolding_all decide
    intro q hq
    rw [h14] at hq
    injection hq with h1 h2
    exact absurd h1 (by with_unfolding_all decide)

/-- Witness for C1 at the concrete input `"2*3+4"`: the term `2` at position
0, a `*` at position 1, and the sum `3+4 = 7`, give the product `2*7`. -/
theorem c1_product_right_operand_full_sum_witness :
    parseProduct defaultTables ("2*3+4".data) 11 0 = .ok (2 * 7) 5 :=
  c1_product_right_operand_full_sum.1 defaultTables ("2*3+4".data) 10 0 2 1 7 5
    (by with_unfolding_all decide) (by decide) (by with_unfolding_all decide)

/-- Claim C2: `ParseSum` accepts at most one `+`/`-` operator, so `"1+2"`
and `"4-5"` evaluate but `"1+2+3"` fails the end-of-input check in
`ParseExpression` with a syntax error at offset 3, the second `+`. -/
theorem c2_sum_no_chaining :
    evaluateStr "1+2" = .ok 3 3 ∧
    evaluateStr "4-5" = .ok (-1) 3 ∧
    evaluateStr "1+2+3" = .err ⟨"Syntax error.", 3⟩ := by
  refine ⟨?_, ?_, ?_⟩ <;> with_unfolding_all decide

/-- Claim C3: identifier resolution in `ParseIdentifier`: a symbol followed
by `(` must be in the function table (then one Sum argument is parsed between
the parentheses and the function applied), and otherwise must be in the
constant table; unresolved names fail with errors naming the symbol, as for
`Evaluate("foo(1)")` and `Evaluate("bar")`. -/
theorem c3_identifier_resolution :
    (∀ (t : Tables) (src : List Char) (f pos : Nat) (sym : String) (p1 : Nat),
      getSymbol src pos = .ok (sym, p1) →
      peekChar src (skipWhite src p1) = '(' →
      t.functions.lookup sym = none →
      parseIdentifier t src (f + 1) pos =
        .err ⟨"Unknown function \"" ++ sym ++ "\".", skipWhite src p1⟩) ∧
    (∀ (t : Tables) (src : List Char) (f pos : Nat) (sym : String) (p1 : Nat),
      getSymbol src pos = .ok (sym, p1) →
      peekChar src (skipWhite src p1) ≠ '(' →
      t.constants.lookup sym = none →
      parseIdentifier t src (f + 1) pos =
        .err ⟨"Unknown symbol \"" ++ sym ++ "\".", skipWhite src p1⟩) ∧
    (∀ (t : Tables) (src : List Char) (f pos : Nat) (sym : String) (p1 : Nat)
        (g : ℚ → ℚ) (arg : ℚ) (p4 p5 : Nat),
      getSymbol src pos = .ok (sym, p1) →
      peekChar src (skipWhite src p1) = '(' →
      t.functions.lookup sym = some g →
      parseSum t src f (skipWhite src p1 + 1) = .ok arg p4 →
      consume src p4 ')' = .ok p5 →
      parseIdentifier t src (f + 1) pos = .ok (g arg) p5) ∧
    (∀ (t : Tables) (src : List Char) (f pos : Nat) (sym : String) (p1 : Nat)
        (v : ℚ),
      getSymbol src pos = .ok (sym, p1) →
      peekChar src (skipWhite src p1) ≠ '(' →
      t.constants.lookup sym = some v →
      parseIdentifier t src (f + 1) pos = .ok v (skipWhite src p1)) ∧
    evaluateStr "foo(1)" = .err ⟨"Unknown function \"foo\".", 3⟩ ∧
    evaluateStr "bar" = .err ⟨"Unknown symbol \"bar\".", 3⟩ := by
  refine ⟨?_, ?_, ?_, ?_, by with_unfolding_all decide,
    by with_unfolding_all decide⟩
  · intro t src f pos sym p1 hsym hpar hlook
    simp only [parseIdentifier]
    rw [hsym]
    dsimp only
    rw [if_pos hpar, hlook]
  · intro t src f pos sym p1 hsym hpar hlook
    simp only [parseIdentifier]
    rw [hsym]
    dsimp only
    rw [if_neg hpar, hlook]
  · intro t src f pos sym p1 g arg p4 p5 hsym hpar hlook hsum hcons
    have hc : consume src (skipWhite src p1) '(' = .ok (skipWhite src p1 + 1) :=
      consume_ok_of_peek hpar (by decide)
    simp only [parseIdentifier]
    rw [hsym]
    dsimp only
    rw [if_pos hpar, hlook]
    dsimp only
    rw [hc]
    dsimp only
    rw [hsum]
    dsimp only
    rw [hcons]
  · intro t src f pos sym p1 v hsym hpar hlook
    simp only [parseIdentifier]
    rw [hsym]
    dsimp only
    rw [if_neg hpar, hlook]

/-- Witness for C3 at the concrete input `"foo(1)"`: the symbol `foo` ends at
position 3, is followed by `(`, and is not in the function table. -/
theorem c3_identifier_resolution_witness :
    parseIdentifier defaultTables ("foo(1)".data) 6 0 =
      .err ⟨"Unknown function \"foo\".", skipWhite ("foo(1)".data) 3⟩ :=
  c3_identifier_resolution.1 defaultTables ("foo(1)".data) 5 0 "foo" 3
    (by decide) (by decide) (by rfl)

/-- Claim C4: a sign can begin a term only because `IsFirstCharOfDouble`
routes `+`/`-` into `GetConstant` (there is no unary-expression production);
`"1+-2"` therefore evaluates to `-1` with `-2` lexed as a signed constant,
while `"-"` and `"-."` — signed numerals with both digit runs empty — fail. -/
theorem c4_unary_sign_only_in_constant :
    (∀ (t : Tables) (src : List Char) (f pos : Nat),
      isFirstCharOfDouble (peekChar src (skipWhite src pos)) = true →
      parseTerm t src (f + 1) pos = getConstant src (skipWhite src pos)) ∧
    isFirstCharOfDouble '-' = true ∧
    isFirstCharOfDouble '+' = true ∧
    evaluateStr "1+-2" = .ok (-1) 4 ∧
    evaluateStr "-" = .err ⟨"Invalid float.", 1⟩ ∧
    evaluateStr "-." = .err ⟨"Invalid float.", 2⟩ := by
  refine ⟨?_, by decide, by decide, by with_unfolding_all decide,
    by with_unfolding_all decide, by with_unfolding_all decide⟩
  intro t src f pos hdbl
  have hpar : peekChar src (skipWhite src pos) ≠ '(' := by
    intro hc
    rw [hc] at hdbl
    exact absurd hdbl (by decide)
  simp only [parseTerm, if_neg hpar, if_pos hdbl]

/-- Witness for C4 at the concrete input `"-2"`: the leading `-` routes into
`GetConstant`, which parses the signed constant `-2`. -/
theorem c4_unary_sign_only_in_constant_witness :
    parseTerm defaultTables ("-2".data) 4 0 =
      getConstant ("-2".data) (skipWhite ("-2".data) 0) ∧
    getConstant ("-2".data) 0 = .ok (-2) 2 :=
  ⟨c4_unary_sign_only_in_constant.1 defaultTables ("-2".data) 3 0 (by decide),
   by with_unfolding_all decide⟩

/-- Counterexample to Claim C5 as stated: for `Evaluate("-")` the invalid
numeric literal error is reported at position 1 (after the munched text),
not at position 0 (the starting position of the literal). -/
theorem c5_counterexample :
    evaluateStr "-" = .err ⟨"Invalid float.", 1⟩ ∧
    ¬ evaluateStr "-" = .err ⟨"Invalid float.", 0⟩ := by
  constructor <;> with_unfolding_all decide

/-- Claim C5 (amended): when the maximal-munch numeral text fails to convert
(`stod` rejects it), evaluation fails with the invalid-float error whose
position is the position immediately after the munched literal text — its end
position, not its starting position; for `Evaluate("-")` that is position 1. -/
theorem c5_invalid_literal_end_position :
    (∀ (src : List Char) (pos : Nat) (s : List Char) (p' : Nat),
      munchNumber src (skipWhite src pos) = .ok (s, p') →
      stod s = none →
      getConstant src pos = .err ⟨"Invalid float.", p'⟩) ∧
    evaluateStr "-" = .err ⟨"Invalid float.", 1⟩ ∧
    evaluateStr "+" = .err ⟨"Invalid float.", 1⟩ ∧
    evaluateStr "." = .err ⟨"Invalid float.", 1⟩ := by
  refine ⟨?_, by with_unfolding_all decide, by with_unfolding_all decide,
    by with_unfolding_all decide⟩
  intro src pos s p' hmun hstod
  simp only [getConstant]
  rw [hmun]
  dsimp only
  rw [hstod]

/-- Witness for C5 (amended) at the concrete input `"-"`: the munch gathers
`"-"` ending at position 1, `stod` rejects it, and the error is at 1. -/
theorem c5_invalid_literal_end_position_witness :
    getConstant ("-".data) 0 = .err ⟨"Invalid float.", 1⟩ :=
  c5_invalid_literal_end_position.1 ("-".data) 0 ['-'] 1 (by decide)
    (by with_unfolding_all decide)

/-- Claim C6: an exponent marker (`e`/`E`, with optional sign) not followed
by a digit makes `GetConstant` fail with the dedicated missing-exponent
error, as for `Evaluate("1e")`. -/
theorem c6_missing_exponent_digits :
    (∀ (src : List Char) (pos p2 : Nat),
      (peekChar src pos = 'e' ∨ peekChar src pos = 'E') →
      p2 = (if peekChar src (pos + 1) = '+' ∨ peekChar src (pos + 1) = '-'
            then pos + 2 else pos + 1) →
      isdigitC (peekChar src p2) = false →
      munchExponent src pos =
        .error ⟨"Expected exponent in floating point constant.", p2⟩) ∧
    evaluateStr "1e" = .err ⟨"Expected exponent in floating point constant.", 2⟩ ∧
    evaluateStr "2e+" = .err ⟨"Expected exponent in floating point constant.", 3⟩ ∧
    evaluateStr "1E-" = .err ⟨"Expected exponent in floating point constant.", 3⟩ := by
  refine ⟨?_, by with_unfolding_all decide, by with_unfolding_all decide,
    by with_unfolding_all decide⟩
  intro src pos p2 hm hp2 hd
  have hne : peekChar src pos ≠ nulChar := by
    rcases hm with h | h <;> rw [h] <;> decide
  simp only [munchExponent, if_pos hm, getChar_snd_of_ne hne]
  by_cases hs : peekChar src (pos + 1) = '+' ∨ peekChar src (pos + 1) = '-'
  · have hne2 : peekChar src (pos + 1) ≠ nulChar := by
      rcases hs with h | h <;> rw [h] <;> decide
    rw [if_pos hs] at hp2
    subst hp2
    simp only [if_pos hs, getChar_snd_of_ne hne2]
    rw [if_pos hd]
  · rw [if_neg hs] at hp2
    subst hp2
    simp only [if_neg hs]
    rw [if_pos hd]

/-- Witness for C6 at the concrete input `"1e"`: the marker at position 1 is
followed by end of input, so the error is at position 2. -/
theorem c6_missing_exponent_digits_witness :
    munchExponent ("1e".data) 1 =
      .error ⟨"Expected exponent in floating point constant.", 2⟩ :=
  c6_missing_exponent_digits.1 ("1e".data) 1 2 (by decide) (by decide)
    (by decide)

/-- Claim C7: evaluation is deterministic and stateless across calls: each
call constructs a fresh `Calc` whose cursor starts at 0 with the fixed
tables, and the result is a pure function of the source string, so two calls
on the same input agree exactly (same value, or same error message and
position). -/
theorem c7_evaluate_deterministic :
    ∀ src : List Char,
      evaluateTwice src = (evaluate src, evaluate src) ∧
      mkCalc src = ⟨src, 0, defaultTables⟩ ∧
      evaluate src = parseExpression defaultTables src (sumFuel src) 0 :=
  fun _ => ⟨rfl, rfl, rfl⟩

/-- Claim C8: the cursor invariant `0 ≤ pos ≤ len` is preserved, and the
position never decreases, across every primitive (`GetChar`, `SkipWhite`,
`Consume`) and every parsing procedure (`GetSymbol`, `GetConstant`, and the
four grammar productions, at any fuel). -/
theorem c8_cursor_invariant :
    ∀ (t : Tables) (src : List Char) (pos : Nat), pos ≤ src.length →
      (pos ≤ (getChar src pos).2 ∧ (getChar src pos).2 ≤ src.length) ∧
      (pos ≤ skipWhite src pos ∧ skipWhite src pos ≤ src.length) ∧
      (∀ c p', consume src pos c = .ok p' → pos ≤ p' ∧ p' ≤ src.length) ∧
      (∀ s p', getSymbol src pos = .ok (s, p') → pos ≤ p' ∧ p' ≤ src.length) ∧
      (∀ v p', getConstant src pos = .ok v p' → pos ≤ p' ∧ p' ≤ src.length) ∧
      (∀ f v p', parseSum t src f pos = .ok v p' →
        pos ≤ p' ∧ p' ≤ src.length) ∧
      (∀ f v p', parseProduct t src f pos = .ok v p' →
        pos ≤ p' ∧ p' ≤ src.length) ∧
      (∀ f v p', parseTerm t src f pos = .ok v p' →
        pos ≤ p' ∧ p' ≤ src.length) ∧
      (∀ f v p', parseIdentifier t src f pos = .ok v p' →
        pos ≤ p' ∧ p' ≤ src.length) := by
  intro t src pos hl
  refine ⟨⟨le_getChar_snd src pos, getChar_snd_le_len hl⟩,
    ⟨le_skipWhite src pos, skipWhite_le_len hl⟩, ?_, ?_, ?_, ?_, ?_, ?_, ?_⟩
  · intro c p' h
    exact ⟨(consume_ok_bounds h).1, (consume_ok_bounds h).2 hl⟩
  · intro s p' h
    have hb := getSymbol_ok_bounds h
    exact ⟨by omega, hb.2 hl⟩
  · intro v p' h
    exact ⟨(getConstant_ok_bounds h).1, (getConstant_ok_bounds h).2 hl⟩
  · intro f v p' h
    exact (parse_bounds t src f).1 pos v p' hl h
  · intro f v p' h
    exact (parse_bounds t src f).2.1 pos v p' hl h
  · intro f v p' h
    exact (parse_bounds t src f).2.2.1 pos v p' hl h
  · intro f v p' h
    exact (parse_bounds t src f).2.2.2 pos v p' hl h

/-- Witness for C8 at the concrete input `"1"`, position 0: `SkipWhite`
stays at 0, and `ParseSum` at fuel 7 ends at position 1, within bounds. -/
theorem c8_cursor_invariant_witness :
    (0 ≤ skipWhite ("1".data) 0 ∧ skipWhite ("1".data) 0 ≤ ("1".data).length) ∧
    (0 ≤ 1 ∧ 1 ≤ ("1".data).length) :=
  ⟨(c8_cursor_invariant defaultTables ("1".data) 0 (by decide)).2.1,
   (c8_cursor_invariant defaultTables ("1".data) 0 (by decide)).2.2.2.2.2.1 7 1 1
     (by with_unfolding_all decide)⟩

/-- Claim C9: evaluation terminates on every input: with any fuel of at
least `3*len+4` the recursive descent never exhausts its fuel, and the
result does not depend on the fuel — it equals `evaluate`. -/
theorem c9_evaluation_terminates :
    ∀ (src : List Char) (f : Nat), sumFuel src ≤ f →
      parseExpression defaultTables src f 0 ≠ .fuelOut ∧
      parseExpression defaultTables src f 0 = evaluate src := by
  intro src f hf
  exact ⟨parseExpression_ne_fuelOut defaultTables src hf,
    (parseExpression_fuel defaultTables src hf).trans
      (evaluate_eq_parseExpression src).symm⟩

/-- Witness for C9 at the concrete input `"1"` with fuel 7. -/
theorem c9_evaluation_terminates_witness :
    parseExpression defaultTables ("1".data) 7 0 ≠ .fuelOut ∧
    parseExpression defaultTables ("1".data) 7 0 = evaluate ("1".data) :=
  c9_evaluation_terminates ("1".data) 7 (by decide)

/-- Claim C10: the end-of-input sentinel is the NUL character itself, so a
source containing NUL at position `p` evaluates exactly as its prefix before
that NUL: everything after the NUL is silently ignored. -/
theorem c10_embedded_nul_truncates :
    ∀ (src : List Char) (p : Nat), src[p]? = some nulChar →
      evaluate src = evaluate (src.take p) :=
  fun _ _ h => evaluate_take h

/-- Witness for C10 at the concrete input `1<NUL>+2`: it evaluates like the
prefix `1`, successfully returning 1 instead of reporting `+2` as trailing
input. -/
theorem c10_embedded_nul_truncates_witness :
    evaluate ['1', Char.ofNat 0, '+', '2'] =
      evaluate (List.take 1 ['1', Char.ofNat 0, '+', '2']) ∧
    evaluate ['1', Char.ofNat 0, '+', '2'] = .ok 1 1 :=
  ⟨c10_embedded_nul_truncates _ 1 (by decide), by with_unfolding_all decide⟩

end Calc
